import Mathlib

/-!
Verification of the measurement notebook `5_measure_onnx.ipynb` (ONNX benchmark
harness).  The notebook is a linear script: an accuracy loop over the test
loader (cell-11), a model-size measurement (cell-14), a single-sample latency
loop with one warm-up call (cell-16), latency percentile / throughput
statistics (cell-17), a batch-throughput loop (cell-19/20), and a summary
(cell-22).  We embed each of these shallowly:

* the ONNX session is modelled as an abstract engine; for the timing phases
  only its per-call wall-clock cost matters, so a call is a state transition
  on an `EngineState` (current clock reading, number of calls so far) driven
  by an injected per-call delay sequence;
* for the accuracy phase the engine is a scoring function `α → List ℚ` and
  `np.argmax` is embedded as the index of the first maximal score;
* `np.percentile` (default linear interpolation) is embedded over `ℚ`:
  sort, take the virtual rank `(n-1)*q/100`, linearly interpolate between
  the neighbouring order statistics;
* wall-clock readings and durations are rationals.
-/

namespace MeasureOnnx

/-! ## Timing-phase state machine (cells 16 and 19)

`time.time()` readings are modelled by `now`; every `ort_session.run` call
advances the clock by the injected delay of that call and bumps the call
counter.  The latency recorded for a timed trial is the difference of the
clock readings around the call, exactly as in
`start_time = time.time(); ort_session.run(...); latencies.append(time.time() - start_time)`. -/

structure EngineState where
  now : ℚ
  calls : ℕ
deriving DecidableEq

/-- One `ort_session.run(...)` call: consumes the delay assigned to this call
index and increments the call counter. -/
def ortRun (delays : ℕ → ℚ) (st : EngineState) : EngineState :=
  { now := st.now + delays st.calls, calls := st.calls + 1 }

/-- The warm-up calls: `warmup` untimed `ort_session.run` invocations whose
results and durations are discarded (the source performs exactly one, written
as a bare `ort_session.run(...)` line before the timed loop). -/
def warmupRuns (delays : ℕ → ℚ) : ℕ → EngineState → EngineState
  | 0, st => st
  | n + 1, st => warmupRuns delays n (ortRun delays st)

/-- The timed loop of cell-16/cell-19: `for _ in range(trials)` read the
clock, run the engine once, and append the elapsed time.  Returns the
recorded durations in trial (arrival) order together with the final state. -/
def timedRuns (delays : ℕ → ℚ) : ℕ → EngineState → List ℚ × EngineState
  | 0, st => ([], st)
  | n + 1, st =>
      let st1 := ortRun delays st
      let rest := timedRuns delays n st1
      ((st1.now - st.now) :: rest.1, rest.2)

/-- Cell-16: warm-up first, then `trials` timed single-sample calls on the
same fixed input (the input itself does not influence the recorded times in
this model, matching the fact that the very same tensor is fed every time). -/
def measure_single_sample_latency (delays : ℕ → ℚ) (trials warmup : ℕ)
    (st0 : EngineState) : List ℚ × EngineState :=
  timedRuns delays trials (warmupRuns delays warmup st0)

/-- Cell-19: the batch-throughput timing loop; structurally identical to the
single-sample loop (warm-up, then `num_batches` timed calls on the same fixed
batch). -/
def measure_batch_throughput (delays : ℕ → ℚ) (trials warmup : ℕ)
    (st0 : EngineState) : List ℚ × EngineState :=
  timedRuns delays trials (warmupRuns delays warmup st0)

/-- Error kinds named by the specification's error-handling design. -/
inductive BenchError where
  | invalidArgument
  | notFound
  | engineInvocation
  | datasetExhausted
deriving DecidableEq

/-- Cell-16 with its (absent) error behaviour made explicit: the notebook
performs no validation of the trial count and the loop body raises nothing,
so the checked form of the measurement always succeeds (`range(0)` simply
yields an empty loop). -/
def measure_single_sample_latency_checked (delays : ℕ → ℚ) (trials warmup : ℕ)
    (st0 : EngineState) : Except BenchError (List ℚ × EngineState) :=
  .ok (measure_single_sample_latency delays trials warmup st0)

/-- Cell-19 with its (absent) error behaviour made explicit; as with the
latency loop, the source performs no argument validation and cannot fail. -/
def measure_batch_throughput_checked (delays : ℕ → ℚ) (trials warmup : ℕ)
    (st0 : EngineState) : Except BenchError (List ℚ × EngineState) :=
  .ok (measure_batch_throughput delays trials warmup st0)

/-! ## Throughput formulas (cells 17 and 20) -/

/-- Cell-17: `num_trials/np.sum(latencies)`. -/
def single_sample_fps (trials : ℕ) (latencies : List ℚ) : ℚ :=
  (trials : ℚ) / latencies.sum

/-- Cell-20: `batch_fps = (batch_input.shape[0] * num_batches) / np.sum(batch_times)`. -/
def batch_fps (batchSize numBatches : ℕ) (batchTimes : List ℚ) : ℚ :=
  ((batchSize * numBatches : ℕ) : ℚ) / batchTimes.sum

/-! ## Percentiles (cell-17): `np.percentile` with the default linear
interpolation.  For a sorted sequence `s` of length `n` and percentage `q`,
the virtual rank is `h = (n-1) * q / 100`; the result interpolates between
the order statistics at `⌊h⌋` and `⌈h⌉`. -/

/-- Linear interpolation at virtual rank `h` into the sorted sequence `s`:
the value between the order statistics at `⌊h⌋` and `⌈h⌉`, at fractional
offset `h - ⌊h⌋`. -/
def rankInterp (s : List ℚ) (h : ℚ) : ℚ :=
  s.getD ⌊h⌋.toNat 0 +
    (h - (⌊h⌋.toNat : ℚ)) * (s.getD ⌈h⌉.toNat 0 - s.getD ⌊h⌋.toNat 0)

/-- `np.percentile(xs, q)` with the default linear interpolation: sort, then
interpolate at virtual rank `(n-1)*q/100`. -/
def np_percentile (xs : List ℚ) (q : ℚ) : ℚ :=
  rankInterp (xs.insertionSort (· ≤ ·))
    (((xs.insertionSort (· ≤ ·)).length - 1 : ℚ) * q / 100)

/-! ## Accuracy phase (cell-11) -/

/-- `np.argmax` on a score vector: index of the first occurrence of the
maximum (0 on an empty vector, as a total function). -/
def argmaxAux : List ℚ → ℕ → ℕ → ℚ → ℕ
  | [], _, best, _ => best
  | x :: xs, i, best, bestVal =>
      if bestVal < x then argmaxAux xs (i + 1) i x
      else argmaxAux xs (i + 1) best bestVal

/-- First-maximum index of a score vector, as `np.argmax` computes it. -/
def np_argmax : List ℚ → ℕ
  | [] => 0
  | x :: xs => argmaxAux xs 1 0 x

/-- Per-batch correct count: `(predicted == labels).sum()` where
`predicted = np.argmax(outputs, axis=1)`.  A batch is a list of
(sample, ground-truth label) pairs and the engine scores one sample. -/
def batch_correct {α : Type} (engine : α → List ℚ) (batch : List (α × ℕ)) : ℕ :=
  (batch.filter (fun p => np_argmax (engine p.1) == p.2)).length

/-- One iteration of the accuracy loop body: `correct += ...; total += labels.size(0)`. -/
def accStep {α : Type} (engine : α → List ℚ) (acc : ℕ × ℕ) (batch : List (α × ℕ)) : ℕ × ℕ :=
  (acc.1 + batch_correct engine batch, acc.2 + batch.length)

/-- Cell-11: fold the accuracy loop over every batch of the dataset in
dataset order, starting from `correct = 0, total = 0`. -/
def measure_accuracy {α : Type} (engine : α → List ℚ) (batches : List (List (α × ℕ))) : ℕ × ℕ :=
  batches.foldl (accStep engine) (0, 0)

/-- `accuracy = (correct / total) * 100`. -/
def accuracyPct (correct total : ℕ) : ℚ :=
  ((correct : ℚ) / (total : ℚ)) * 100

/-! ## Model size (cell-14) -/

/-- Cell-14: `model_size / 1e6`, the decimal-megabyte conversion of a byte
count. -/
def model_size_mb (sizeBytes : ℕ) : ℚ :=
  (sizeBytes : ℚ) / 1000000

/-! ## Input selection for the timing phases (cells 16 and 19)

Both phases start with `next(iter(test_loader))`: a fresh iteration of the
unshuffled loader, whose head is always the first batch.  The single-sample
phase then keeps only the first sample (`single_sample[:1]`), the batch phase
keeps the whole batch. -/

/-- `iter(test_loader)`: a fresh, restarted iteration of the deterministic,
unshuffled dataset reproduces the full batch sequence from the start. -/
def fresh_iter {β : Type} (ds : List β) : List β := ds

/-- Cell-16: `single_sample, _ = next(iter(test_loader)); single_sample = single_sample[:1]`. -/
def single_sample_input {α : Type} (ds : List (List α)) : Option (List α) :=
  ((fresh_iter ds).head?).map (fun b => b.take 1)

/-- Cell-19: `batch_input, _ = next(iter(test_loader))`. -/
def batch_input_selection {α : Type} (ds : List (List α)) : Option (List α) :=
  (fresh_iter ds).head?

/-! ## Summary (cell-22) -/

/-- The aggregated metrics printed by the summary cell, as a value object. -/
structure SummaryReport where
  accuracy_pct : ℚ
  size_mb : ℚ
  latency_p50_ms : ℚ
  latency_p95_ms : ℚ
  latency_p99_ms : ℚ
  fps_single : ℚ
  fps_batch : ℚ
deriving DecidableEq

/-- Cell-22: the seven quantities of the summary, each computed exactly as in
the corresponding print expression (`* 1000` converts seconds to ms). -/
def summarize (correct total sizeBytes : ℕ) (latencies batchTimes : List ℚ)
    (batchSize numTrials numBatches : ℕ) : SummaryReport :=
  { accuracy_pct := accuracyPct correct total
    size_mb := model_size_mb sizeBytes
    latency_p50_ms := np_percentile latencies 50 * 1000
    latency_p95_ms := np_percentile latencies 95 * 1000
    latency_p99_ms := np_percentile latencies 99 * 1000
    fps_single := single_sample_fps numTrials latencies
    fps_batch := batch_fps batchSize numBatches batchTimes }

/-! ## Lemmas about the timing state machine -/

theorem warmupRuns_calls (delays : ℕ → ℚ) (w : ℕ) (st : EngineState) :
    (warmupRuns delays w st).calls = st.calls + w := by
  induction w generalizing st with
  | zero => rfl
  | succ n ih =>
      rw [warmupRuns, ih]
      simp only [ortRun]
      omega

theorem timedRuns_succ (delays : ℕ → ℚ) (n : ℕ) (st : EngineState) :
    timedRuns delays (n + 1) st =
      (((ortRun delays st).now - st.now) :: (timedRuns delays n (ortRun delays st)).1,
        (timedRuns delays n (ortRun delays st)).2) := rfl

/-- The recorded durations are exactly the injected delays of the successive
calls, in arrival order. -/
theorem timedRuns_fst (delays : ℕ → ℚ) (n : ℕ) (st : EngineState) :
    (timedRuns delays n st).1 = (List.range n).map (fun i => delays (st.calls + i)) := by
  induction n generalizing st with
  | zero => rfl
  | succ m ih =>
      rw [timedRuns_succ]
      show ((ortRun delays st).now - st.now) :: (timedRuns delays m (ortRun delays st)).1 = _
      rw [ih, List.range_succ_eq_map, List.map_cons, List.map_map]
      refine List.cons_eq_cons.mpr ⟨by simp [ortRun], ?_⟩
      refine List.map_congr_left (fun a ha => ?_)
      simp only [Function.comp_apply, ortRun, Nat.succ_eq_add_one]
      congr 1
      omega

theorem timedRuns_calls (delays : ℕ → ℚ) (n : ℕ) (st : EngineState) :
    (timedRuns delays n st).2.calls = st.calls + n := by
  induction n generalizing st with
  | zero => rfl
  | succ m ih =>
      rw [timedRuns_succ]
      show (timedRuns delays m (ortRun delays st)).2.calls = _
      rw [ih]
      simp only [ortRun]
      omega

/-- Telescoping: the sum of the recorded durations is the total wall-clock
time elapsed over the timed loop. -/
theorem timedRuns_sum (delays : ℕ → ℚ) (n : ℕ) (st : EngineState) :
    (timedRuns delays n st).1.sum = (timedRuns delays n st).2.now - st.now := by
  induction n generalizing st with
  | zero => simp [timedRuns]
  | succ m ih =>
      rw [timedRuns_succ]
      show (ortRun delays st).now - st.now + (timedRuns delays m (ortRun delays st)).1.sum = _
      rw [ih]
      ring

/-- Claim C1: for every trials count `N ≥ 1` and every warm-up count, the
single-sample latency measurement performs the warm-up calls first (untimed
and discarded), then exactly `N` timed calls on the same fixed input, and
returns exactly `N` timing samples in trial (arrival) order — the `i`-th
sample is the duration of the `i`-th timed call, which is call
`warmup + i` of the engine — each `≥ 0`. -/
theorem measure_single_sample_latency_spec (delays : ℕ → ℚ) (trials warmup : ℕ)
    (st0 : EngineState) (htrials : 1 ≤ trials) (hdelays : ∀ k, 0 ≤ delays k) :
    (measure_single_sample_latency delays trials warmup st0).1 =
      (List.range trials).map (fun i => delays (st0.calls + warmup + i)) ∧
    (measure_single_sample_latency delays trials warmup st0).1.length = trials ∧
    (∀ x ∈ (measure_single_sample_latency delays trials warmup st0).1, 0 ≤ x) ∧
    (measure_single_sample_latency delays trials warmup st0).2.calls =
      st0.calls + warmup + trials := by
  have h1 : (measure_single_sample_latency delays trials warmup st0).1 =
      (List.range trials).map (fun i => delays (st0.calls + warmup + i)) := by
    unfold measure_single_sample_latency
    rw [timedRuns_fst, warmupRuns_calls]
  refine ⟨h1, ?_, ?_, ?_⟩
  · rw [h1]; simp
  · rw [h1]
    intro x hx
    simp only [List.mem_map] at hx
    obtain ⟨i, _, rfl⟩ := hx
    exact hdelays _
  · unfold measure_single_sample_latency
    rw [timedRuns_calls, warmupRuns_calls]

/-- Claim C1 witness: with delays `k ↦ k`, 3 trials and 1 warm-up call from a
fresh engine state, the hypotheses of the latency specification hold and the
loop indeed returns 3 samples after `1 + 3` engine calls. -/
theorem measure_single_sample_latency_spec_witness :
    (measure_single_sample_latency (fun k => (k : ℚ)) 3 1 ⟨0, 0⟩).1.length = 3 ∧
    (measure_single_sample_latency (fun k => (k : ℚ)) 3 1 ⟨0, 0⟩).2.calls = 0 + 1 + 3 :=
  ⟨(measure_single_sample_latency_spec (fun k => (k : ℚ)) 3 1 ⟨0, 0⟩ (by norm_num)
      (fun k => by positivity)).2.1,
    (measure_single_sample_latency_spec (fun k => (k : ℚ)) 3 1 ⟨0, 0⟩ (by norm_num)
      (fun k => by positivity)).2.2.2⟩

/-- Claim C2 counterexample: invoking either timing loop with `trials = 0`
does not fail with `InvalidArgument` — the notebook performs no argument
validation, `range(0)` is simply an empty loop, and the checked embedding
returns a success value. -/
theorem trials_zero_not_invalidArgument :
    measure_single_sample_latency_checked (fun _ => 1) 0 1 ⟨0, 0⟩ ≠
      Except.error BenchError.invalidArgument ∧
    measure_batch_throughput_checked (fun _ => 1) 0 1 ⟨0, 0⟩ ≠
      Except.error BenchError.invalidArgument := by
  constructor <;>
    simp [measure_single_sample_latency_checked, measure_batch_throughput_checked]

/-- Claim C2 (amended): invoking a measurement loop with `trials = 0`
performs zero timed calls on the engine (the final call count is the initial
one plus only the warm-up calls) and succeeds with an empty timing sequence;
no `InvalidArgument` failure occurs because the source performs no argument
validation. -/
theorem trials_zero_behavior (delays : ℕ → ℚ) (warmup : ℕ) (st0 : EngineState) :
    measure_single_sample_latency_checked delays 0 warmup st0 =
      Except.ok ([], warmupRuns delays warmup st0) ∧
    measure_batch_throughput_checked delays 0 warmup st0 =
      Except.ok ([], warmupRuns delays warmup st0) ∧
    (warmupRuns delays warmup st0).calls = st0.calls + warmup :=
  ⟨rfl, rfl, warmupRuns_calls delays warmup st0⟩

/-- Claim C4: for a batch of size `B`, `T ≥ 1` trials and recorded batch
timings with positive sum, the reported batch throughput is `(B*T)/S` where
`S` is the sum of the recorded timings — which itself equals the total
wall-clock time elapsed over the timed loop (so the figure is batch items per
elapsed second, not a per-call average). -/
theorem batch_fps_spec (delays : ℕ → ℚ) (batchSize trials warmup : ℕ)
    (st0 : EngineState) (htrials : 1 ≤ trials)
    (hsum : 0 < ((measure_batch_throughput delays trials warmup st0).1).sum) :
    batch_fps batchSize trials (measure_batch_throughput delays trials warmup st0).1 =
      ((batchSize : ℚ) * (trials : ℚ)) /
        ((measure_batch_throughput delays trials warmup st0).1).sum ∧
    ((measure_batch_throughput delays trials warmup st0).1).sum =
      (measure_batch_throughput delays trials warmup st0).2.now -
        (warmupRuns delays warmup st0).now := by
  constructor
  · unfold batch_fps
    push_cast
    rfl
  · unfold measure_batch_throughput
    exact timedRuns_sum delays trials (warmupRuns delays warmup st0)

/-- Claim C4 witness: a stub engine consuming exactly half a second per call,
batch size 32, 2 trials, 1 warm-up call: the timing sum is positive and the
reported throughput is `(32*2)/1 = 64`. -/
theorem batch_fps_spec_witness :
    batch_fps 32 2 (measure_batch_throughput (fun _ => (1 : ℚ)/2) 2 1 ⟨0, 0⟩).1 =
      ((32 : ℚ) * 2) /
        ((measure_batch_throughput (fun _ => (1 : ℚ)/2) 2 1 ⟨0, 0⟩).1).sum :=
  (batch_fps_spec (fun _ => (1 : ℚ)/2) 32 2 1 ⟨0, 0⟩ (by norm_num) (by
    simp [measure_batch_throughput, timedRuns, ortRun, warmupRuns])).1

/-- Claim C5: for `N ≥ 1` trials and a recorded latency sequence with
positive sum, the reported single-sample throughput is `N` divided by the sum
of the latency samples, and that sum is the total wall-clock time of the
timed phase. -/
theorem single_sample_fps_spec (delays : ℕ → ℚ) (trials warmup : ℕ)
    (st0 : EngineState) (htrials : 1 ≤ trials)
    (hsum : 0 < ((measure_single_sample_latency delays trials warmup st0).1).sum) :
    single_sample_fps trials (measure_single_sample_latency delays trials warmup st0).1 =
      (trials : ℚ) /
        ((measure_single_sample_latency delays trials warmup st0).1).sum ∧
    ((measure_single_sample_latency delays trials warmup st0).1).sum =
      (measure_single_sample_latency delays trials warmup st0).2.now -
        (warmupRuns delays warmup st0).now := by
  constructor
  · rfl
  · unfold measure_single_sample_latency
    exact timedRuns_sum delays trials (warmupRuns delays warmup st0)

/-- Claim C5 witness: a stub engine consuming a quarter second per call, 4
trials, 1 warm-up call: the latency sum is `1` and the reported throughput is
`4 / 1`. -/
theorem single_sample_fps_spec_witness :
    single_sample_fps 4 (measure_single_sample_latency (fun _ => (1 : ℚ)/4) 4 1 ⟨0, 0⟩).1 =
      (4 : ℚ) /
        ((measure_single_sample_latency (fun _ => (1 : ℚ)/4) 4 1 ⟨0, 0⟩).1).sum :=
  (single_sample_fps_spec (fun _ => (1 : ℚ)/4) 4 1 ⟨0, 0⟩ (by norm_num) (by
    simp [measure_single_sample_latency, timedRuns, ortRun, warmupRuns]
    norm_num)).1

/-! ## Lemmas about the accuracy phase -/

theorem argmaxAux_const (xs : List ℚ) (i best : ℕ) (bestVal : ℚ)
    (h : ∀ x ∈ xs, ¬ bestVal < x) :
    argmaxAux xs i best bestVal = best := by
  induction xs generalizing i with
  | nil => rfl
  | cons x xs ih =>
      rw [argmaxAux, if_neg (h x (List.mem_cons_self x xs))]
      exact ih (i + 1) (fun y hy => h y (List.mem_cons_of_mem x hy))

theorem argmaxAux_first_max (xs : List ℚ) : ∀ (p i best : ℕ) (bestVal : ℚ),
    p < xs.length → bestVal < xs.getD p 0 →
    (∀ k, k < xs.length → k ≠ p → xs.getD k 0 < xs.getD p 0) →
    argmaxAux xs i best bestVal = i + p := by
  induction xs with
  | nil => intro p i best bestVal hp _ _; simp at hp
  | cons x xs ih =>
      intro p i best bestVal hp hbv hmax
      cases p with
      | zero =>
          rw [List.getD_cons_zero] at hbv
          rw [argmaxAux, if_pos hbv]
          have hconst : argmaxAux xs (i + 1) i x = i := by
            apply argmaxAux_const
            intro y hy
            obtain ⟨k, hk, rfl⟩ := List.mem_iff_getElem.mp hy
            have h1 := hmax (k + 1) (by simpa using Nat.succ_lt_succ hk) (Nat.succ_ne_zero k)
            rw [List.getD_cons_succ, List.getD_cons_zero,
              List.getD_eq_getElem xs 0 hk] at h1
            exact not_lt.mpr h1.le
          rw [hconst]
          omega
      | succ p =>
          have hp2 : p < xs.length := by
            have := hp; simp at this; omega
          rw [List.getD_cons_succ] at hbv
          have hmax2 : ∀ k, k < xs.length → k ≠ p → xs.getD k 0 < xs.getD p 0 := by
            intro k hk hkp
            have h1 := hmax (k + 1) (by simpa using Nat.succ_lt_succ hk) (by omega)
            rwa [List.getD_cons_succ, List.getD_cons_succ] at h1
          rw [argmaxAux]
          by_cases hx : bestVal < x
          · rw [if_pos hx]
            have hxlt : x < xs.getD p 0 := by
              have h1 := hmax 0 (by simp) (by omega)
              rwa [List.getD_cons_zero, List.getD_cons_succ] at h1
            rw [ih p (i + 1) i x hp2 hxlt hmax2]
            omega
          · rw [if_neg hx]
            rw [ih p (i + 1) best bestVal hp2 hbv hmax2]
            omega

/-- If index `l` carries the strictly highest score, `np.argmax` returns `l`. -/
theorem np_argmax_first_max (scores : List ℚ) (l : ℕ) (hl : l < scores.length)
    (hmax : ∀ j, j < scores.length → j ≠ l → scores.getD j 0 < scores.getD l 0) :
    np_argmax scores = l := by
  cases scores with
  | nil => simp at hl
  | cons x xs =>
      cases l with
      | zero =>
          show argmaxAux xs 1 0 x = 0
          apply argmaxAux_const
          intro y hy
          obtain ⟨k, hk, rfl⟩ := List.mem_iff_getElem.mp hy
          have h1 := hmax (k + 1) (by simpa using Nat.succ_lt_succ hk) (Nat.succ_ne_zero k)
          rw [List.getD_cons_succ, List.getD_cons_zero,
            List.getD_eq_getElem xs 0 hk] at h1
          exact not_lt.mpr h1.le
      | succ j =>
          show argmaxAux xs 1 0 x = j + 1
          have hj : j < xs.length := by
            have := hl; simp at this; omega
          have hbv : x < xs.getD j 0 := by
            have h1 := hmax 0 (by simp) (by omega)
            rwa [List.getD_cons_zero, List.getD_cons_succ] at h1
          have hmax2 : ∀ k, k < xs.length → k ≠ j → xs.getD k 0 < xs.getD j 0 := by
            intro k hk hkj
            have h1 := hmax (k + 1) (by simpa using Nat.succ_lt_succ hk) (by omega)
            rwa [List.getD_cons_succ, List.getD_cons_succ] at h1
          rw [argmaxAux_first_max xs j 1 0 x hj hbv hmax2]
          omega

/-- Accumulator shift: folding the loop body from an arbitrary running tally
adds the tally obtained from a zero start. -/
theorem measure_accuracy_shift {α : Type} (engine : α → List ℚ)
    (batches : List (List (α × ℕ))) (c t : ℕ) :
    batches.foldl (accStep engine) (c, t) =
      (c + (measure_accuracy engine batches).1, t + (measure_accuracy engine batches).2) := by
  induction batches generalizing c t with
  | nil => simp [measure_accuracy]
  | cons b bs ih =>
      show List.foldl (accStep engine) (accStep engine (c, t) b) bs = _
      rw [show accStep engine (c, t) b = (c + batch_correct engine b, t + b.length) from rfl]
      rw [ih]
      have h2 : measure_accuracy engine (b :: bs) =
          (batch_correct engine b + (measure_accuracy engine bs).1,
            b.length + (measure_accuracy engine bs).2) := by
        show List.foldl (accStep engine) (accStep engine (0, 0) b) bs = _
        rw [show accStep engine (0, 0) b = (0 + batch_correct engine b, 0 + b.length) from rfl]
        rw [ih]
        simp
      rw [h2]
      simp only [Prod.mk.injEq]
      constructor <;> omega

/-- The accuracy loop visits every batch exactly once: the final `total` is
the sum of the batch sizes in dataset order. -/
theorem measure_accuracy_total {α : Type} (engine : α → List ℚ)
    (batches : List (List (α × ℕ))) :
    (measure_accuracy engine batches).2 = (batches.map List.length).sum := by
  induction batches with
  | nil => rfl
  | cons b bs ih =>
      show (List.foldl (accStep engine) (accStep engine (0, 0) b) bs).2 = _
      rw [show accStep engine (0, 0) b = (0 + batch_correct engine b, 0 + b.length) from rfl]
      rw [measure_accuracy_shift]
      simp [ih]

theorem batch_correct_le {α : Type} (engine : α → List ℚ) (b : List (α × ℕ)) :
    batch_correct engine b ≤ b.length :=
  List.length_filter_le _ b

theorem measure_accuracy_le {α : Type} (engine : α → List ℚ)
    (batches : List (List (α × ℕ))) :
    (measure_accuracy engine batches).1 ≤ (measure_accuracy engine batches).2 := by
  induction batches with
  | nil => simp [measure_accuracy]
  | cons b bs ih =>
      show (List.foldl (accStep engine) (accStep engine (0, 0) b) bs).1 ≤
        (List.foldl (accStep engine) (accStep engine (0, 0) b) bs).2
      rw [show accStep engine (0, 0) b = (0 + batch_correct engine b, 0 + b.length) from rfl]
      rw [measure_accuracy_shift]
      have hb := batch_correct_le engine b
      simp only []
      omega

theorem measure_accuracy_all_correct {α : Type} (engine : α → List ℚ)
    (batches : List (List (α × ℕ)))
    (h : ∀ b ∈ batches, ∀ p ∈ b, np_argmax (engine p.1) = p.2) :
    (measure_accuracy engine batches).1 = (measure_accuracy engine batches).2 := by
  induction batches with
  | nil => rfl
  | cons b bs ih =>
      have hb : batch_correct engine b = b.length := by
        unfold batch_correct
        rw [List.filter_eq_self.mpr
          (fun p hp => by simpa using h b (List.mem_cons_self b bs) p hp)]
      show (List.foldl (accStep engine) (accStep engine (0, 0) b) bs).1 =
        (List.foldl (accStep engine) (accStep engine (0, 0) b) bs).2
      rw [show accStep engine (0, 0) b = (0 + batch_correct engine b, 0 + b.length) from rfl]
      rw [measure_accuracy_shift]
      have hrest := ih (fun b2 hb2 => h b2 (List.mem_cons_of_mem b hb2))
      simp only []
      omega

theorem measure_accuracy_all_wrong {α : Type} (engine : α → List ℚ)
    (batches : List (List (α × ℕ)))
    (h : ∀ b ∈ batches, ∀ p ∈ b, np_argmax (engine p.1) ≠ p.2) :
    (measure_accuracy engine batches).1 = 0 := by
  induction batches with
  | nil => rfl
  | cons b bs ih =>
      have hb : batch_correct engine b = 0 := by
        unfold batch_correct
        rw [List.filter_eq_nil_iff.mpr
          (fun p hp => by simpa using h b (List.mem_cons_self b bs) p hp)]
        rfl
      show (List.foldl (accStep engine) (accStep engine (0, 0) b) bs).1 = 0
      rw [show accStep engine (0, 0) b = (0 + batch_correct engine b, 0 + b.length) from rfl]
      rw [measure_accuracy_shift]
      have hrest := ih (fun b2 hb2 => h b2 (List.mem_cons_of_mem b hb2))
      simp only []
      omega

theorem accuracyPct_self (t : ℕ) (ht : 0 < t) : accuracyPct t t = 100 := by
  unfold accuracyPct
  rw [div_self (ne_of_gt (by exact_mod_cast ht))]
  norm_num

theorem accuracyPct_zero_left (t : ℕ) : accuracyPct 0 t = 0 := by
  unfold accuracyPct
  simp

/-- Claim C6: `measure_accuracy` folds over every batch of the dataset
exactly once in dataset order (the final total is the sum of the batch sizes),
comparing the arg-max predicted class against the ground-truth label per
sample; with an engine that always scores the correct class strictly highest
it yields `correct = total` and accuracy `100`, and with an engine whose
arg-max prediction is always a wrong class it yields `correct = 0` and
accuracy `0`. -/
theorem measure_accuracy_spec {α : Type} (engine : α → List ℚ)
    (batches : List (List (α × ℕ)))
    (hpos : 0 < (measure_accuracy engine batches).2) :
    (measure_accuracy engine batches).2 = (batches.map List.length).sum ∧
    ((∀ b ∈ batches, ∀ p ∈ b, p.2 < (engine p.1).length ∧
        (∀ j, j < (engine p.1).length → j ≠ p.2 →
          (engine p.1).getD j 0 < (engine p.1).getD p.2 0)) →
      (measure_accuracy engine batches).1 = (measure_accuracy engine batches).2 ∧
      accuracyPct (measure_accuracy engine batches).1
        (measure_accuracy engine batches).2 = 100) ∧
    ((∀ b ∈ batches, ∀ p ∈ b, np_argmax (engine p.1) ≠ p.2) →
      (measure_accuracy engine batches).1 = 0 ∧
      accuracyPct (measure_accuracy engine batches).1
        (measure_accuracy engine batches).2 = 0) := by
  refine ⟨measure_accuracy_total engine batches, ?_, ?_⟩
  · intro h
    have heq : (measure_accuracy engine batches).1 = (measure_accuracy engine batches).2 := by
      apply measure_accuracy_all_correct
      intro b hb p hp
      exact np_argmax_first_max (engine p.1) p.2 (h b hb p hp).1 (h b hb p hp).2
    refine ⟨heq, ?_⟩
    rw [heq]
    exact accuracyPct_self _ hpos
  · intro h
    have h0 := measure_accuracy_all_wrong engine batches h
    refine ⟨h0, ?_⟩
    rw [h0]
    exact accuracyPct_zero_left _

/-- Stub engine that scores the true class (= the sample value) highest among
two classes. -/
def demoEngine : ℕ → List ℚ :=
  fun s => [if s = 0 then 1 else 0, if s = 1 then 1 else 0]

/-- Stub engine that always scores the other of the two classes highest. -/
def demoWrongEngine : ℕ → List ℚ :=
  fun s => [if s = 0 then 0 else 1, if s = 0 then 1 else 0]

/-- A tiny two-class dataset of one batch with two samples, each labelled by
its own value. -/
def demoBatches : List (List (ℕ × ℕ)) := [[(0, 0), (1, 1)]]

/-- Claim C6 witness: on the two-sample demo dataset the always-right stub
engine scores `correct = total` and accuracy `100`. -/
theorem measure_accuracy_spec_witness :
    (measure_accuracy demoEngine demoBatches).1 = (measure_accuracy demoEngine demoBatches).2 ∧
    accuracyPct (measure_accuracy demoEngine demoBatches).1
      (measure_accuracy demoEngine demoBatches).2 = 100 :=
  (measure_accuracy_spec demoEngine demoBatches (by decide)).2.1 (by decide)

/-- Claim C9: throughout the accuracy phase the running tally satisfies
`correct ≤ total` — per batch the increment to `correct` is at most the
increment to `total`, and after any number `k` of processed batches the
prefix tally still satisfies the invariant — hence on a non-empty dataset the
final accuracy value lies in `[0, 100]`. -/
theorem accuracy_invariant {α : Type} (engine : α → List ℚ)
    (batches : List (List (α × ℕ))) :
    (∀ b : List (α × ℕ), batch_correct engine b ≤ b.length) ∧
    (∀ k : ℕ, (measure_accuracy engine (batches.take k)).1 ≤
      (measure_accuracy engine (batches.take k)).2) ∧
    (0 < (measure_accuracy engine batches).2 →
      0 ≤ accuracyPct (measure_accuracy engine batches).1
          (measure_accuracy engine batches).2 ∧
      accuracyPct (measure_accuracy engine batches).1
          (measure_accuracy engine batches).2 ≤ 100) := by
  refine ⟨batch_correct_le engine, fun k => measure_accuracy_le engine _, fun hpos => ?_⟩
  have hle := measure_accuracy_le engine batches
  constructor
  · unfold accuracyPct
    positivity
  · unfold accuracyPct
    have htpos : (0 : ℚ) < ((measure_accuracy engine batches).2 : ℚ) := by
      exact_mod_cast hpos
    have hdiv : ((measure_accuracy engine batches).1 : ℚ) /
        ((measure_accuracy engine batches).2 : ℚ) ≤ 1 := by
      rw [div_le_one htpos]
      exact_mod_cast hle
    calc ((measure_accuracy engine batches).1 : ℚ) /
          ((measure_accuracy engine batches).2 : ℚ) * 100
        ≤ 1 * 100 := by
          exact mul_le_mul_of_nonneg_right hdiv (by norm_num)
      _ = 100 := by norm_num

/-- Claim C9 witness: on the demo dataset the invariant and the accuracy
bounds hold concretely. -/
theorem accuracy_invariant_witness :
    0 ≤ accuracyPct (measure_accuracy demoEngine demoBatches).1
        (measure_accuracy demoEngine demoBatches).2 ∧
    accuracyPct (measure_accuracy demoEngine demoBatches).1
        (measure_accuracy demoEngine demoBatches).2 ≤ 100 :=
  (accuracy_invariant demoEngine demoBatches).2.2 (by decide)

/-! ## Model size, timing-input selection, summary -/

/-- Claim C7: the model-size measurement converts bytes to megabytes by
dividing by `1e6` (decimal megabytes): a file of exactly 1,048,576 bytes is
reported as `1.048576` MB — in particular not as `1` (the binary-MiB value). -/
theorem model_size_mb_spec :
    model_size_mb 1048576 = (1048576 : ℚ) / 1000000 ∧
    model_size_mb 1048576 = 1.048576 ∧
    model_size_mb 1048576 ≠ 1 := by
  refine ⟨rfl, by norm_num [model_size_mb], by norm_num [model_size_mb]⟩

/-- Claim C10: both timing phases draw their input from the head of a fresh,
restarted iteration of the unshuffled dataset — the batch-throughput input is
exactly the first batch, and the single-sample latency input is exactly the
first sample of that same first batch; restarting the iteration changes
nothing, so every run measures on the same fixed data. -/
theorem timing_inputs_spec {α : Type} (ds : List (List α)) (b : List α)
    (rest : List (List α)) (h : ds = b :: rest) :
    batch_input_selection ds = some b ∧
    single_sample_input ds = some (b.take 1) ∧
    (∀ x xs, b = x :: xs → single_sample_input ds = some [x]) ∧
    batch_input_selection (fresh_iter ds) = batch_input_selection ds ∧
    single_sample_input (fresh_iter ds) = single_sample_input ds := by
  subst h
  refine ⟨rfl, rfl, ?_, rfl, rfl⟩
  intro x xs hx
  subst hx
  rfl

/-- Claim C10 witness: on a concrete two-batch dataset the batch input is the
first batch and the single-sample input is its first sample. -/
theorem timing_inputs_spec_witness :
    batch_input_selection ([[0, 1], [2]] : List (List ℕ)) = some [0, 1] ∧
    single_sample_input ([[0, 1], [2]] : List (List ℕ)) = some [0] :=
  ⟨(timing_inputs_spec ([[0, 1], [2]] : List (List ℕ)) [0, 1] [[2]] rfl).1,
    (timing_inputs_spec ([[0, 1], [2]] : List (List ℕ)) [0, 1] [[2]] rfl).2.2.1 0 [1] rfl⟩

/-- Claim C8: the summary computation is a pure, deterministic function of
its inputs — two invocations on identical accuracy tallies, artifact size,
latency samples, batch timings and batch/trial counts produce identical
`SummaryReport` values (and, being a plain function into a value object, it
has no side effects and performs no I/O). -/
theorem summarize_pure (c1 t1 s1 : ℕ) (l1 b1 : List ℚ) (B1 N1 M1 : ℕ)
    (c2 t2 s2 : ℕ) (l2 b2 : List ℚ) (B2 N2 M2 : ℕ)
    (hc : c1 = c2) (ht : t1 = t2) (hs : s1 = s2) (hl : l1 = l2) (hb : b1 = b2)
    (hB : B1 = B2) (hN : N1 = N2) (hM : M1 = M2) :
    summarize c1 t1 s1 l1 b1 B1 N1 M1 = summarize c2 t2 s2 l2 b2 B2 N2 M2 := by
  subst hc; subst ht; subst hs; subst hl; subst hb; subst hB; subst hN; subst hM
  rfl

/-- Claim C8 witness: two invocations of the summary on the same concrete
inputs yield identical reports. -/
theorem summarize_pure_witness :
    summarize 3 4 1048576 [1, 2] [3] 32 2 1 = summarize 3 4 1048576 [1, 2] [3] 32 2 1 :=
  summarize_pure 3 4 1048576 [1, 2] [3] 32 2 1 3 4 1048576 [1, 2] [3] 32 2 1
    rfl rfl rfl rfl rfl rfl rfl rfl

/-! ## Percentile monotonicity -/

theorem sorted_getD_mono (s : List ℚ) (hs : s.Sorted (· ≤ ·)) {i j : ℕ}
    (hij : i ≤ j) (hj : j < s.length) : s.getD i 0 ≤ s.getD j 0 := by
  have hi : i < s.length := lt_of_le_of_lt hij hj
  rw [List.getD_eq_getElem s 0 hi, List.getD_eq_getElem s 0 hj]
  have h2 := hs.rel_get_of_le (a := ⟨i, hi⟩) (b := ⟨j, hj⟩) (Fin.mk_le_mk.mpr hij)
  simpa [List.get_eq_getElem] using h2

/-- For a virtual rank in range, the interpolated value lies between the
order statistics at the floor and the ceiling of the rank. -/
theorem rankInterp_bounds (s : List ℚ) (hs : s.Sorted (· ≤ ·))
    (h : ℚ) (hh0 : 0 ≤ h) (hh1 : h ≤ (s.length : ℚ) - 1) :
    s.getD ⌊h⌋.toNat 0 ≤ rankInterp s h ∧ rankInterp s h ≤ s.getD ⌈h⌉.toNat 0 := by
  have hn : 1 ≤ s.length := by
    by_contra hlt
    have h0 : s.length = 0 := by omega
    rw [h0] at hh1
    norm_num at hh1
    linarith
  have hfl0 : (0 : ℤ) ≤ ⌊h⌋ := Int.floor_nonneg.mpr hh0
  have hc0 : (0 : ℤ) ≤ ⌈h⌉ := le_trans hfl0 (Int.floor_le_ceil h)
  have hcast_lo : ((⌊h⌋.toNat : ℚ)) = ((⌊h⌋ : ℤ) : ℚ) := by
    exact_mod_cast congrArg (fun z : ℤ => (z : ℚ)) (Int.toNat_of_nonneg hfl0)
  have hlo_le : ((⌊h⌋.toNat : ℚ)) ≤ h := by
    rw [hcast_lo]; exact Int.floor_le h
  have hlt_lo1 : h < (⌊h⌋.toNat : ℚ) + 1 := by
    rw [hcast_lo]; exact_mod_cast Int.lt_floor_add_one h
  have hceil_le : ⌈h⌉ ≤ (s.length : ℤ) - 1 := by
    apply Int.ceil_le.mpr
    push_cast
    exact hh1
  have hhi_lt : ⌈h⌉.toNat < s.length := by omega
  have hlohi : ⌊h⌋.toNat ≤ ⌈h⌉.toNat := by
    have := Int.floor_le_ceil h
    omega
  have hvals : s.getD ⌊h⌋.toNat 0 ≤ s.getD ⌈h⌉.toNat 0 :=
    sorted_getD_mono s hs hlohi hhi_lt
  unfold rankInterp
  constructor
  · nlinarith [mul_nonneg (sub_nonneg.mpr hlo_le) (sub_nonneg.mpr hvals)]
  · nlinarith [mul_le_mul_of_nonneg_right (by linarith : h - (⌊h⌋.toNat : ℚ) ≤ 1)
      (sub_nonneg.mpr hvals)]

/-- Monotonicity of linear rank interpolation in the virtual rank, for sorted
data and in-range ranks. -/
theorem rankInterp_mono (s : List ℚ) (hs : s.Sorted (· ≤ ·))
    (h1 h2 : ℚ) (h10 : 0 ≤ h1) (h12 : h1 ≤ h2) (h2n : h2 ≤ (s.length : ℚ) - 1) :
    rankInterp s h1 ≤ rankInterp s h2 := by
  have h20 : 0 ≤ h2 := le_trans h10 h12
  have h1n : h1 ≤ (s.length : ℚ) - 1 := le_trans h12 h2n
  have hn : 1 ≤ s.length := by
    by_contra hlt
    have h0 : s.length = 0 := by omega
    rw [h0] at h2n
    norm_num at h2n
    linarith
  have hf10 : (0 : ℤ) ≤ ⌊h1⌋ := Int.floor_nonneg.mpr h10
  have hf20 : (0 : ℤ) ≤ ⌊h2⌋ := Int.floor_nonneg.mpr h20
  have hff : ⌊h1⌋ ≤ ⌊h2⌋ := Int.floor_le_floor h12
  have hcc : ⌈h1⌉ ≤ ⌈h2⌉ := Int.ceil_le_ceil h12
  have hc1f1 : ⌈h1⌉ ≤ ⌊h1⌋ + 1 := Int.ceil_le_floor_add_one h1
  have hc2f2 : ⌈h2⌉ ≤ ⌊h2⌋ + 1 := Int.ceil_le_floor_add_one h2
  have hf1c1 : ⌊h1⌋ ≤ ⌈h1⌉ := Int.floor_le_ceil h1
  have hf2c2 : ⌊h2⌋ ≤ ⌈h2⌉ := Int.floor_le_ceil h2
  have hc2n : ⌈h2⌉ ≤ (s.length : ℤ) - 1 := by
    apply Int.ceil_le.mpr
    push_cast
    exact h2n
  by_cases hcase : ⌈h1⌉ ≤ ⌊h2⌋
  · have hb1 := rankInterp_bounds s hs h1 h10 h1n
    have hb2 := rankInterp_bounds s hs h2 h20 h2n
    have hmid : s.getD ⌈h1⌉.toNat 0 ≤ s.getD ⌊h2⌋.toNat 0 := by
      apply sorted_getD_mono s hs (by omega)
      omega
    linarith [hb1.2, hb2.1]
  · push_neg at hcase
    have hf : ⌊h1⌋ = ⌊h2⌋ := by omega
    have hc : ⌈h1⌉ = ⌈h2⌉ := by omega
    have hhi_lt : ⌈h1⌉.toNat < s.length := by omega
    have hvals : s.getD ⌊h1⌋.toNat 0 ≤ s.getD ⌈h1⌉.toNat 0 :=
      sorted_getD_mono s hs (by omega) hhi_lt
    unfold rankInterp
    rw [← hf, ← hc]
    have hkey := mul_le_mul_of_nonneg_right
      (sub_le_sub_right h12 ((⌊h1⌋.toNat : ℚ))) (sub_nonneg.mpr hvals)
    linarith

/-- Monotonicity of `np.percentile` in the percentage, for non-empty data. -/
theorem np_percentile_mono (xs : List ℚ) (hne : xs ≠ []) (q1 q2 : ℚ)
    (hq0 : 0 ≤ q1) (hq12 : q1 ≤ q2) (hq2 : q2 ≤ 100) :
    np_percentile xs q1 ≤ np_percentile xs q2 := by
  unfold np_percentile
  have hs : (xs.insertionSort (· ≤ ·)).Sorted (· ≤ ·) :=
    List.sorted_insertionSort (· ≤ ·) xs
  have hlen : (xs.insertionSort (· ≤ ·)).length = xs.length :=
    List.length_insertionSort (· ≤ ·) xs
  have hn : 1 ≤ (xs.insertionSort (· ≤ ·)).length := by
    rw [hlen]
    exact List.length_pos.mpr hne
  have hn1 : (0 : ℚ) ≤ ((xs.insertionSort (· ≤ ·)).length : ℚ) - 1 := by
    have : (1 : ℚ) ≤ ((xs.insertionSort (· ≤ ·)).length : ℚ) := by exact_mod_cast hn
    linarith
  apply rankInterp_mono _ hs
  · exact div_nonneg (mul_nonneg hn1 hq0) (by norm_num)
  · exact (div_le_div_right (by norm_num)).mpr (mul_le_mul_of_nonneg_left hq12 hn1)
  · rw [div_le_iff (by norm_num : (0 : ℚ) < 100)]
    calc (((xs.insertionSort (· ≤ ·)).length : ℚ) - 1) * q2
        ≤ (((xs.insertionSort (· ≤ ·)).length : ℚ) - 1) * 100 :=
          mul_le_mul_of_nonneg_left hq2 hn1
      _ = (((xs.insertionSort (· ≤ ·)).length : ℚ) - 1) * 100 := rfl

/-- Claim C3: for every non-empty sequence of latency timing samples, the
percentiles computed by linear-interpolation rank statistics satisfy
`p50 ≤ p95 ≤ p99`. -/
theorem percentile_p50_p95_p99 (xs : List ℚ) (hne : xs ≠ []) :
    np_percentile xs 50 ≤ np_percentile xs 95 ∧
    np_percentile xs 95 ≤ np_percentile xs 99 :=
  ⟨np_percentile_mono xs hne 50 95 (by norm_num) (by norm_num) (by norm_num),
    np_percentile_mono xs hne 95 99 (by norm_num) (by norm_num) (by norm_num)⟩

/-- Claim C3 witness: on the concrete latency sample `[3, 1, 2]` the three
percentiles are monotone. -/
theorem percentile_p50_p95_p99_witness :
    np_percentile [3, 1, 2] 50 ≤ np_percentile [3, 1, 2] 95 ∧
    np_percentile [3, 1, 2] 95 ≤ np_percentile [3, 1, 2] 99 :=
  percentile_p50_p95_p99 [3, 1, 2] (by simp)

end MeasureOnnx
